import Mathlib

set_option maxRecDepth 10000

/-!
Verification of the encryption/masking subsystem of the envi CLI.

The Go sources are shallowly embedded over `List Nat` (byte sequences,
every byte `< 256`).  String values in the Go code are modelled by their
UTF-8 byte sequences; all literals involved are ASCII.  Randomness (the
per-call GCM nonce drawn from `crypto/rand`) is made an explicit
parameter.  Key acquisition (terminal prompts, file reads) is made an
explicit parameter carrying the bytes the Go code would have obtained.

Two generations of the wire format coexist in the repository and both are
embedded here:
* the `internal/encryption` package: whole-file marker `"ENVI_ENCRYPTED:"`,
  per-value marker `"ENVI_MASKED:"` (functions `EncryptContent`,
  `DecryptContent`, `MaskEnvContent`, `UnmaskEnvContent`, `IsEncrypted`,
  `IsMasked`, `getKeyFromFile`);
* the `package main` V1 codec (merge.go / pull.go and the masking codec
  shipped alongside them): whole-file marker `"ENVI_ENCRYPTED_V1\n"`,
  document marker line `"# ENVI_MASKED_ENCRYPTION_V1"`, per-value wrapper
  `KEY=ENVI_MASKED[base64]` (embedded below with a `V1` suffix).
-/

/-- A byte sequence: every element is `< 256`. -/
def Bytes (l : List Nat) : Prop := ∀ b ∈ l, b < 256

instance : DecidablePred Bytes := fun l =>
  List.decidableBAll (fun b => b < 256) l

/-! ## Generic byte-list helpers mirroring the Go string/bytes functions -/

/-- `strings.HasPrefix s p` / `bytes.HasPrefix s p` (arguments: pattern, subject). -/
def startsWith : List Nat → List Nat → Bool
  | [], _ => true
  | _ :: _, [] => false
  | p :: ps, c :: cs => p == c && startsWith ps cs

/-- `strings.Contains hay needle` / `bytes.Contains hay needle`. -/
def containsSub : List Nat → List Nat → Bool
  | [], needle => startsWith needle []
  | h :: t, needle => startsWith needle (h :: t) || containsSub t needle

/-- ASCII whitespace, as trimmed by `strings.TrimSpace` on ASCII input. -/
def isSpaceB (c : Nat) : Bool :=
  c == 32 || c == 9 || c == 10 || c == 11 || c == 12 || c == 13

/-- Leading-whitespace trim. -/
def trimLeftWS (l : List Nat) : List Nat := l.dropWhile isSpaceB

/-- Trailing-whitespace trim. -/
def trimRightWS (l : List Nat) : List Nat := (l.reverse.dropWhile isSpaceB).reverse

/-- `strings.TrimSpace` (ASCII model). -/
def trimSpace (l : List Nat) : List Nat := trimRightWS (trimLeftWS l)

/-- `strings.Index line "="`: position of the first `'='` (byte 61), if any. -/
def indexOfEq : List Nat → Option Nat
  | [] => none
  | c :: rest => if c = 61 then some 0 else (indexOfEq rest).map (· + 1)

/-- `strings.Split s "\n"`: split at every newline byte (10). -/
def splitNL : List Nat → List (List Nat)
  | [] => [[]]
  | c :: rest =>
    if c = 10 then [] :: splitNL rest
    else
      match splitNL rest with
      | [] => [[c]]
      | r :: rs => (c :: r) :: rs

/-- `strings.Join lines "\n"`. -/
def joinNL : List (List Nat) → List Nat
  | [] => []
  | [l] => l
  | l :: l' :: rest => l ++ 10 :: joinNL (l' :: rest)

/-! ## Base64 (model of Go `encoding/base64` `StdEncoding`) -/

/-- Value `0..63` to standard-alphabet ASCII code. -/
def b64EncodeChar (n : Nat) : Nat :=
  if n < 26 then 65 + n
  else if n < 52 then 97 + (n - 26)
  else if n < 62 then 48 + (n - 52)
  else if n = 62 then 43
  else 47

/-- ASCII code to its standard-alphabet value, `none` outside the alphabet. -/
def b64DecVal (ch : Nat) : Option Nat :=
  if 65 ≤ ch ∧ ch ≤ 90 then some (ch - 65)
  else if 97 ≤ ch ∧ ch ≤ 122 then some (ch - 97 + 26)
  else if 48 ≤ ch ∧ ch ≤ 57 then some (ch - 48 + 52)
  else if ch = 43 then some 62
  else if ch = 47 then some 63
  else none

/-- `base64.StdEncoding.EncodeToString`: three input bytes per four output
characters, `'='`-padded final quantum. -/
def b64Encode : List Nat → List Nat
  | [] => []
  | [a] => [b64EncodeChar (a / 4), b64EncodeChar (a % 4 * 16), 61, 61]
  | [a, b] => [b64EncodeChar (a / 4), b64EncodeChar (a % 4 * 16 + b / 16),
               b64EncodeChar (b % 16 * 4), 61]
  | a :: b :: c :: rest =>
      b64EncodeChar (a / 4) :: b64EncodeChar (a % 4 * 16 + b / 16) ::
      b64EncodeChar (b % 16 * 4 + c / 64) :: b64EncodeChar (c % 64) ::
      b64Encode rest

/-- Chunk-wise decoder: groups of four characters, padding only allowed in
the final quantum, `'='` rejected in the first two positions (it is not in
the alphabet).  Any other shape is a format error, as in Go. -/
def b64DecodeChunks : List Nat → Option (List Nat)
  | [] => some []
  | a :: b :: c :: d :: rest =>
    match b64DecVal a, b64DecVal b with
    | some va, some vb =>
      if c = 61 then
        if d = 61 && rest.isEmpty then some [va * 4 + vb / 16] else none
      else
        match b64DecVal c with
        | some vc =>
          if d = 61 then
            if rest.isEmpty then some [va * 4 + vb / 16, vb % 16 * 16 + vc / 4]
            else none
          else
            match b64DecVal d with
            | some vd =>
              match b64DecodeChunks rest with
              | some tail =>
                  some ((va * 4 + vb / 16) :: (vb % 16 * 16 + vc / 4) ::
                        (vc % 4 * 64 + vd) :: tail)
              | none => none
            | none => none
        | none => none
    | _, _ => none
  | _ => none

/-- `base64.StdEncoding.DecodeString`: the Go decoder skips carriage
returns and newlines before decoding. -/
def b64Decode (s : List Nat) : Option (List Nat) :=
  b64DecodeChunks (s.filter (fun ch => !(ch == 10) && !(ch == 13)))

/-! ## Cipher engine (model of Go `crypto/cipher` AES-256-GCM and `crypto/sha256`)

The Go code delegates the authenticated cipher to the standard library
(`aes.NewCipher` + `cipher.NewGCM`, 12-byte nonce, 16-byte tag) and key
hashing to `sha256.Sum256`.  Those primitives are outside this repository;
they are modelled here by a concrete executable authenticated-encryption
scheme with the same interface contract: `gcmSeal key nonce pt` returns
`ciphertext ++ tag` with `|ciphertext| = |pt|` and a 16-byte tag bound to
`(key, nonce, ciphertext)`; `gcmOpen key nonce c` recovers the plaintext
exactly when the tag verifies and fails (`none`) otherwise, never
returning partial output.  `sha256Model` is a deterministic 32-byte
digest. -/

/-- `gcm.NonceSize()` for AES-GCM. -/
def nonceSize : Nat := 12

/-- Keyed mixing fold used by the cipher model. -/
def mixFold (l : List Nat) (seed : Nat) : Nat :=
  l.foldl (fun a b => (a * 131 + b + 7) % 65536) (seed % 65536)

/-- Keystream byte `i` of the cipher model. -/
def ksByte (key nonce : List Nat) (i : Nat) : Nat :=
  mixFold (key ++ nonce) (i + 1) % 256

/-- The model's 16-byte authentication tag over `(key, nonce, ciphertext)`. -/
def gcmTagBytes (key nonce ct : List Nat) : List Nat :=
  (List.range 16).map (fun i => mixFold (key ++ 255 :: nonce ++ 254 :: ct) i % 256)

/-- Plaintext to ciphertext, byte `i` onward. -/
def streamEnc (key nonce : List Nat) : Nat → List Nat → List Nat
  | _, [] => []
  | i, b :: rest => (b + ksByte key nonce i) % 256 :: streamEnc key nonce (i + 1) rest

/-- Ciphertext to plaintext, byte `i` onward. -/
def streamDec (key nonce : List Nat) : Nat → List Nat → List Nat
  | _, [] => []
  | i, b :: rest =>
      (b + (256 - ksByte key nonce i)) % 256 :: streamDec key nonce (i + 1) rest

/-- Model of `gcm.Seal(nil, nonce, pt, nil)`: ciphertext-with-tag (the Go
call sites pass `nonce` as `dst`, so they obtain `nonce ++ gcmSeal ...`). -/
def gcmSeal (key nonce pt : List Nat) : List Nat :=
  let ct := streamEnc key nonce 0 pt
  ct ++ gcmTagBytes key nonce ct

/-- Model of `gcm.Open(nil, nonce, c, nil)`: verify the trailing 16-byte
tag, return the plaintext on success and nothing on failure. -/
def gcmOpen (key nonce c : List Nat) : Option (List Nat) :=
  if c.length < 16 then none
  else
    let ct := c.take (c.length - 16)
    let tg := c.drop (c.length - 16)
    if gcmTagBytes key nonce ct = tg then some (streamDec key nonce 0 ct) else none

/-- Model of `sha256.Sum256`: a deterministic 32-byte digest of the input. -/
def sha256Model (l : List Nat) : List Nat :=
  (List.range 32).map (fun i => mixFold (i :: l) (i + 3) % 256)

/-! ## Wire-format markers (byte literals) -/

/-- `EncryptionPrefix = "ENVI_ENCRYPTED:"` (src/internal/encryption/encryption.go). -/
def EncryptionMarker : List Nat := [69, 78, 86, 73, 95, 69, 78, 67, 82, 89, 80, 84, 69, 68, 58]

/-- `MaskedPrefix = "ENVI_MASKED:"` (src/internal/encryption/encryption.go). -/
def MaskedMarker : List Nat := [69, 78, 86, 73, 95, 77, 65, 83, 75, 69, 68, 58]

/-- `"ENVI_ENCRYPTED_V1\n"`, the whole-file header of the V1 codec (src/merge.go). -/
def encMarkerV1 : List Nat :=
  [69, 78, 86, 73, 95, 69, 78, 67, 82, 89, 80, 84, 69, 68, 95, 86, 49, 10]

/-- `"ENVI_ENCRYPTED_V1"` without trailing newline, as tested by pull.go. -/
def encMarkerV1NoNL : List Nat :=
  [69, 78, 86, 73, 95, 69, 78, 67, 82, 89, 80, 84, 69, 68, 95, 86, 49]

/-- `"# ENVI_MASKED_ENCRYPTION_V1"`, the V1 masked-document marker line. -/
def maskedMarkerV1 : List Nat :=
  [35, 32, 69, 78, 86, 73, 95, 77, 65, 83, 75, 69, 68, 95,
   69, 78, 67, 82, 89, 80, 84, 73, 79, 78, 95, 86, 49]

/-- `"ENVI_MASKED["`, the opening of the V1 per-value wrapper. -/
def maskedOpenV1 : List Nat := [69, 78, 86, 73, 95, 77, 65, 83, 75, 69, 68, 91]

/-! ## internal/encryption: whole-file codec -/

/-- `IsEncrypted` (src/internal/encryption/encryption.go):
`bytes.HasPrefix(content, []byte(EncryptionPrefix))`. -/
def IsEncrypted (content : List Nat) : Bool := startsWith EncryptionMarker content

/-- `IsMasked` (src/internal/encryption/encryption.go):
`bytes.Contains(content, []byte(MaskedPrefix))`. -/
def IsMasked (content : List Nat) : Bool := containsSub content MaskedMarker

/-- `EncryptContent` (src/internal/encryption/encryption.go).  The key (from
`getEncryptionKey`) and the random nonce are explicit parameters;
`gcm.Seal(nonce, nonce, content, nil)` yields `nonce ++ gcmSeal ...`. -/
def EncryptContent (key nonce content : List Nat) : List Nat :=
  EncryptionMarker ++ b64Encode (nonce ++ gcmSeal key nonce content)

/-- `DecryptContent` (src/internal/encryption/encryption.go), with the key an
explicit parameter.  Error strings are the Go ones. -/
def DecryptContent (key content : List Nat) : Except String (List Nat) :=
  if !IsEncrypted content then
    Except.error "content is not encrypted or has invalid format"
  else
    match b64Decode (content.drop EncryptionMarker.length) with
    | none => Except.error "invalid encrypted data format"
    | some ciphertext =>
      if ciphertext.length < nonceSize then
        Except.error "invalid encrypted data: ciphertext too short"
      else
        match gcmOpen key (ciphertext.take nonceSize) (ciphertext.drop nonceSize) with
        | none => Except.error "decryption failed: invalid password or corrupted data"
        | some plaintext => Except.ok plaintext

/-! ## internal/encryption: line-oriented masking codec -/

/-- One loop iteration of `MaskEnvContent` (src/internal/encryption/encryption.go):
comments, blank lines, lines without `'='` and assignments with an empty
value pass through; any other value is sealed and wrapped as
`key= ++ "ENVI_MASKED:" ++ base64(nonce ++ ciphertext-with-tag)`. -/
def maskLine (key nonce line : List Nat) : List Nat :=
  if startsWith [35] (trimSpace line) || trimSpace line == [] then line
  else
    match indexOfEq line with
    | none => line
    | some eqIdx =>
      let k := line.take (eqIdx + 1)
      let v := line.drop (eqIdx + 1)
      if v = [] then line
      else k ++ MaskedMarker ++ b64Encode (nonce ++ gcmSeal key nonce v)

/-- The per-line loop of `MaskEnvContent`; each iteration draws a fresh
nonce, modelled by indexing the nonce source with the line number. -/
def maskLines (key : List Nat) (nonces : Nat → List Nat) :
    Nat → List (List Nat) → List (List Nat)
  | _, [] => []
  | i, l :: rest => maskLine key (nonces i) l :: maskLines key nonces (i + 1) rest

/-- `MaskEnvContent` (src/internal/encryption/encryption.go): split on
newlines, transform each line, join with newlines. -/
def MaskEnvContent (key : List Nat) (nonces : Nat → List Nat) (content : List Nat) :
    List Nat :=
  joinNL (maskLines key nonces 0 (splitNL content))

/-- One loop iteration of `UnmaskEnvContent`
(src/internal/encryption/encryption.go).  Error strings are the Go ones. -/
def unmaskLine (key line : List Nat) : Except String (List Nat) :=
  if startsWith [35] (trimSpace line) || trimSpace line == [] then Except.ok line
  else
    match indexOfEq line with
    | none => Except.ok line
    | some eqIdx =>
      let k := line.take (eqIdx + 1)
      let v := line.drop (eqIdx + 1)
      if !startsWith MaskedMarker v then Except.ok line
      else
        match b64Decode (v.drop MaskedMarker.length) with
        | none => Except.error "invalid masked data format"
        | some ciphertext =>
          if ciphertext.length < nonceSize then
            Except.error "invalid masked data: ciphertext too short"
          else
            match gcmOpen key (ciphertext.take nonceSize) (ciphertext.drop nonceSize) with
            | none => Except.error "unmasking failed: invalid password or corrupted data"
            | some plaintext => Except.ok (k ++ plaintext)

/-- The per-line loop of `UnmaskEnvContent`: the first failing line aborts
the whole pass with its error. -/
def unmaskLines (key : List Nat) : List (List Nat) → Except String (List (List Nat))
  | [] => Except.ok []
  | l :: rest =>
    match unmaskLine key l with
    | Except.error e => Except.error e
    | Except.ok l' =>
      match unmaskLines key rest with
      | Except.error e => Except.error e
      | Except.ok rest' => Except.ok (l' :: rest')

/-- `UnmaskEnvContent` (src/internal/encryption/encryption.go). -/
def UnmaskEnvContent (key content : List Nat) : Except String (List Nat) :=
  match unmaskLines key (splitNL content) with
  | Except.error e => Except.error e
  | Except.ok ls => Except.ok (joinNL ls)

/-! ## internal/encryption: key-file derivation -/

/-- `EncryptionKeyLength = 32`. -/
def EncryptionKeyLength : Nat := 32

/-- `getKeyFromFile` (src/internal/encryption/encryption.go), with the key
file's bytes an explicit parameter (the Go code reads them from
`EncryptionKeyFile`): trim whitespace; accept a base64 decoding of exactly
32 bytes, else the trimmed bytes themselves if exactly 32, else hash. -/
def getKeyFromFile (keyData : List Nat) : List Nat :=
  let key := trimSpace keyData
  match b64Decode key with
  | some decodedKey =>
    if decodedKey.length = EncryptionKeyLength then decodedKey
    else if key.length = EncryptionKeyLength then key
    else sha256Model key
  | none =>
    if key.length = EncryptionKeyLength then key
    else sha256Model key

/-! ## package main (merge.go): V1 whole-file codec and password derivation -/

/-- `EncryptContent` (src/merge.go, `package main` revision): marker line
`"ENVI_ENCRYPTED_V1\n"` followed by `base64(nonce ++ ciphertext-with-tag)`. -/
def EncryptContentV1 (key nonce content : List Nat) : List Nat :=
  encMarkerV1 ++ b64Encode (nonce ++ gcmSeal key nonce content)

/-- `DecryptContent` (src/merge.go, `package main` revision). -/
def DecryptContentV1 (key content : List Nat) : Except String (List Nat) :=
  if !startsWith encMarkerV1 content then
    Except.error "content is not encrypted or uses an unsupported format"
  else
    match b64Decode (content.drop encMarkerV1.length) with
    | none => Except.error "failed to decode encrypted content"
    | some ciphertext =>
      if ciphertext.length < nonceSize then Except.error "ciphertext too short"
      else
        match gcmOpen key (ciphertext.take nonceSize) (ciphertext.drop nonceSize) with
        | none => Except.error "failed to decrypt"
        | some plaintext => Except.ok plaintext

/-- The password path of `getKeyFromPassword` (src/merge.go), with the
password text (from the flag or the terminal prompt, and after the
matching confirmation on the encrypt side) an explicit parameter: fewer
than 8 bytes is rejected, otherwise the key is the SHA-256 digest of the
password text. -/
def getKeyFromPassword (password : List Nat) : Except String (List Nat) :=
  if password.length < 8 then
    Except.error "password must be at least 8 characters long"
  else Except.ok (sha256Model password)

/-! ## package main: V1 masking codec (bufio.Scanner-based) -/

/-- `dropCR` of `bufio.ScanLines`: strip one trailing carriage return. -/
def dropCR (l : List Nat) : List Nat :=
  if l.getLast? = some 13 then l.dropLast else l

/-- `bufio.Scanner` with `ScanLines`: newline-separated tokens, no final
empty token for input ending in a newline, trailing `\r` stripped. -/
def scanLines (content : List Nat) : List (List Nat) :=
  let parts := splitNL content
  (if parts.getLast? = some [] then parts.dropLast else parts).map dropCR

/-- One loop iteration of the V1 `MaskEnvContent` (`package main` masking
codec): empty lines and comments pass through; `SplitN(line, "=", 2)`
splits at the first `'='`; values that are empty after trimming pass
through; other values are sealed and wrapped as `KEY=ENVI_MASKED[base64]`. -/
def maskLineV1 (key nonce line : List Nat) : List Nat :=
  if line == [] || startsWith [35] (trimSpace line) then line
  else
    match indexOfEq line with
    | none => line
    | some eqIdx =>
      let keyName := line.take eqIdx
      let v := line.drop (eqIdx + 1)
      if trimSpace v == [] then line
      else keyName ++ 61 :: maskedOpenV1 ++
        b64Encode (nonce ++ gcmSeal key nonce v) ++ [93]

/-- The scanner loop of the V1 `MaskEnvContent`; `lineNum` starts at 1 and
indexes the per-line nonce source. -/
def maskLinesV1 (key : List Nat) (nonces : Nat → List Nat) :
    Nat → List (List Nat) → List (List Nat)
  | _, [] => []
  | i, l :: rest => maskLineV1 key (nonces i) l :: maskLinesV1 key nonces (i + 1) rest

/-- The V1 `MaskEnvContent` (`package main` masking codec): prepends the
marker line `"# ENVI_MASKED_ENCRYPTION_V1"`, then the transformed scanner
lines, joined with newlines. -/
def MaskEnvContentV1 (key : List Nat) (nonces : Nat → List Nat) (content : List Nat) :
    List Nat :=
  joinNL (maskedMarkerV1 :: maskLinesV1 key nonces 1 (scanLines content))

/-! ## Format detection (pull.go) -/

/-- The three key-free classifications of a pulled document. -/
inductive Format where
  | Plaintext : Format
  | WholeFileEncrypted : Format
  | Masked : Format
deriving DecidableEq

/-- The key-free format detection of pull.go:
`strings.HasPrefix(envContent, "ENVI_ENCRYPTED_V1")` checked first, else
`strings.Contains(envContent, "# ENVI_MASKED_ENCRYPTION_V1")`, else
plaintext (when both markers are present pull.go also proceeds as
whole-file encrypted). -/
def Classify (content : List Nat) : Format :=
  if startsWith encMarkerV1NoNL content then Format.WholeFileEncrypted
  else if containsSub content maskedMarkerV1 then Format.Masked
  else Format.Plaintext

/-! ## Round-trip lemmas for the internal masking codec -/

/-- The plaintext document `"FOO=bar\n# ENVI_MASKED_ENCRYPTION_V1 note"`:
an ordinary assignment followed by a comment that mentions the masked
marker. -/
def plaintextCommentDoc : List Nat :=
  [70, 79, 79, 61, 98, 97, 114, 10] ++ maskedMarkerV1 ++ [32, 110, 111, 116, 101]

/-- The plaintext document `"X=1\n# ENVI_MASKED_ENCRYPTION_V1 deprecated"`:
an ordinary assignment followed by a comment that mentions the masked
marker. -/
def commentMentionsMarkerDoc : List Nat :=
  [88, 61, 49, 10] ++ maskedMarkerV1 ++
    [32, 100, 101, 112, 114, 101, 99, 97, 116, 101, 100]

theorem startsWith_append (p r : List Nat) : startsWith p (p ++ r) = true := by
  induction p with
  | nil => rfl
  | cons a ps ih => simp [startsWith, ih]

theorem containsSub_of_startsWith {hay needle : List Nat}
    (h : startsWith needle hay = true) : containsSub hay needle = true := by
  cases hay with
  | nil => simpa [containsSub] using h
  | cons a t => simp [containsSub, h]

theorem splitNL_ne_nil (l : List Nat) : splitNL l ≠ [] := by
  cases l with
  | nil => simp [splitNL]
  | cons c rest =>
    simp only [splitNL]
    split
    · simp
    · cases h : splitNL rest <;> simp

theorem mem_splitNL_no10 (l : List Nat) : ∀ s ∈ splitNL l, 10 ∉ s := by
  induction l with
  | nil => intro s hs; simp [splitNL] at hs; simp [hs]
  | cons c rest ih =>
    intro s hs
    by_cases hc : c = 10
    · simp [splitNL, hc] at hs
      rcases hs with h | h
      · simp [h]
      · exact ih s h
    · simp only [splitNL, if_neg hc] at hs
      cases hsp : splitNL rest with
      | nil => exact absurd hsp (splitNL_ne_nil rest)
      | cons r rs =>
        rw [hsp] at hs
        rcases List.mem_cons.mp hs with h | h
        · subst h
          intro hmem
          rcases List.mem_cons.mp hmem with h10 | h10
          · exact hc h10.symm
          · exact ih r (by rw [hsp]; exact List.mem_cons_self r rs) h10
        · exact ih s (by rw [hsp]; exact List.mem_cons_of_mem r h)

theorem mem_of_mem_splitNL (l : List Nat) :
    ∀ s ∈ splitNL l, ∀ b ∈ s, b ∈ l := by
  induction l with
  | nil => intro s hs; simp [splitNL] at hs; simp [hs]
  | cons c rest ih =>
    intro s hs b hb
    by_cases hc : c = 10
    · simp [splitNL, hc] at hs
      rcases hs with h | h
      · simp [h] at hb
      · exact List.mem_cons_of_mem c (ih s h b hb)
    · simp only [splitNL, if_neg hc] at hs
      cases hsp : splitNL rest with
      | nil => exact absurd hsp (splitNL_ne_nil rest)
      | cons r rs =>
        rw [hsp] at hs
        rcases List.mem_cons.mp hs with h | h
        · subst h
          rcases List.mem_cons.mp hb with h' | h'
          · exact h' ▸ List.mem_cons_self c rest
          · exact List.mem_cons_of_mem c
              (ih r (by rw [hsp]; exact List.mem_cons_self r rs) b h')
        · exact List.mem_cons_of_mem c
            (ih s (by rw [hsp]; exact List.mem_cons_of_mem r h) b hb)

theorem splitNL_no10 (l : List Nat) (h : 10 ∉ l) : splitNL l = [l] := by
  induction l with
  | nil => rfl
  | cons c rest ih =>
    have hc : c ≠ 10 := fun hc => h (hc ▸ List.mem_cons_self c rest)
    have hrest : 10 ∉ rest := fun hm => h (List.mem_cons_of_mem c hm)
    simp only [splitNL, if_neg hc, ih hrest]

theorem splitNL_append_no10 (a r : List Nat) (h : 10 ∉ a) :
    splitNL (a ++ 10 :: r) = a :: splitNL r := by
  induction a with
  | nil => simp [splitNL]
  | cons c t ih =>
    have hc : c ≠ 10 := fun hc => h (hc ▸ List.mem_cons_self c t)
    have ht : 10 ∉ t := fun hm => h (List.mem_cons_of_mem c hm)
    simp only [List.cons_append, splitNL, if_neg hc]
    rw [List.append_eq, ih ht]

theorem splitNL_joinNL (ls : List (List Nat)) (hne : ls ≠ [])
    (h : ∀ s ∈ ls, 10 ∉ s) : splitNL (joinNL ls) = ls := by
  induction ls with
  | nil => exact absurd rfl hne
  | cons l rest ih =>
    cases rest with
    | nil => simpa [joinNL] using splitNL_no10 l (h l (List.mem_cons_self l []))
    | cons l' rest' =>
      have h1 : 10 ∉ l := h l (List.mem_cons_self _ _)
      have h2 : ∀ s ∈ l' :: rest', 10 ∉ s := fun s hs => h s (List.mem_cons_of_mem l hs)
      simp only [joinNL, splitNL_append_no10 l _ h1, ih (by simp) h2]

theorem joinNL_splitNL (l : List Nat) : joinNL (splitNL l) = l := by
  induction l with
  | nil => rfl
  | cons c rest ih =>
    by_cases hc : c = 10
    · subst hc
      simp only [splitNL, if_pos rfl]
      cases hsp : splitNL rest with
      | nil => exact absurd hsp (splitNL_ne_nil rest)
      | cons r rs =>
        rw [hsp] at ih
        simp only [joinNL, List.nil_append]
        rw [ih]
    · simp only [splitNL, if_neg hc]
      cases hsp : splitNL rest with
      | nil => exact absurd hsp (splitNL_ne_nil rest)
      | cons r rs =>
        rw [hsp] at ih
        cases rs with
        | nil => simp only [joinNL] at ih ⊢; rw [ih]
        | cons r' rs' =>
          simp only [joinNL, List.cons_append] at ih ⊢
          rw [ih]

theorem take_append_exact {α : Type} (a b : List α) : (a ++ b).take a.length = a := by
  induction a with
  | nil => simp
  | cons x xs ih => simp [List.take, ih]

theorem drop_append_exact {α : Type} (a b : List α) : (a ++ b).drop a.length = b := by
  induction a with
  | nil => simp
  | cons x xs ih => simp [List.drop, ih]

theorem dropWhile_cons_prop {p : Nat → Bool} {l : List Nat} {a : Nat} {t : List Nat}
    (h : List.dropWhile p l = a :: t) : p a = false := by
  induction l with
  | nil => simp [List.dropWhile] at h
  | cons c rest ih =>
    by_cases hc : p c
    · simp [List.dropWhile, hc] at h
      exact ih h
    · simp [List.dropWhile, hc] at h
      rw [← h.1]
      simpa using hc

theorem dropWhile_append_singleton {p : Nat → Bool} (a : Nat) (h : p a = false) :
    ∀ xs : List Nat, List.dropWhile p (xs ++ [a]) = List.dropWhile p xs ++ [a] := by
  intro xs
  induction xs with
  | nil => simp [List.dropWhile, h]
  | cons x t ih =>
    by_cases hx : p x
    · simp [List.dropWhile, hx, ih]
    · simp [List.dropWhile, hx]

theorem trimRightWS_cons {a : Nat} (t : List Nat) (h : isSpaceB a = false) :
    ∃ t', trimRightWS (a :: t) = a :: t' := by
  refine ⟨(List.dropWhile isSpaceB t.reverse).reverse, ?_⟩
  simp only [trimRightWS, List.reverse_cons]
  rw [dropWhile_append_singleton a h t.reverse]
  simp

theorem trimSpace_of_trimLeft_nil {l : List Nat} (h : trimLeftWS l = []) :
    trimSpace l = [] := by
  simp [trimSpace, h, trimRightWS, List.dropWhile]

/-- The Go test `HasPrefix(TrimSpace(line), "#") || TrimSpace(line) == ""`
(shared by the masking and unmasking passes) only looks at the first
non-whitespace byte of the line. -/
theorem comment_blank_head (l : List Nat) :
    (startsWith [35] (trimSpace l) || trimSpace l == []) =
      (match trimLeftWS l with
       | [] => true
       | a :: _ => 35 == a) := by
  cases h : trimLeftWS l with
  | nil =>
    rw [trimSpace_of_trimLeft_nil h]
    simp [startsWith]
  | cons a t =>
    have ha : isSpaceB a = false := dropWhile_cons_prop h
    obtain ⟨t', ht'⟩ := trimRightWS_cons t ha
    have : trimSpace l = a :: t' := by
      simp only [trimSpace, h, ht']
    rw [this]
    simp [startsWith]

theorem indexOfEq_lt_length {l : List Nat} {i : Nat} (h : indexOfEq l = some i) :
    i < l.length := by
  induction l generalizing i with
  | nil => simp [indexOfEq] at h
  | cons c rest ih =>
    by_cases hc : c = 61
    · simp [indexOfEq, hc] at h
      simp [← h]
    · simp only [indexOfEq, if_neg hc] at h
      cases hr : indexOfEq rest with
      | none => rw [hr] at h; simp at h
      | some j =>
        rw [hr] at h
        simp at h
        subst h
        simpa using Nat.succ_lt_succ (ih hr)

theorem indexOfEq_take_append {l : List Nat} {i : Nat} (h : indexOfEq l = some i)
    (zs : List Nat) : indexOfEq (l.take (i + 1) ++ zs) = some i := by
  induction l generalizing i with
  | nil => simp [indexOfEq] at h
  | cons c rest ih =>
    by_cases hc : c = 61
    · simp [indexOfEq, hc] at h
      subst h
      simp [indexOfEq, hc]
    · simp only [indexOfEq, if_neg hc] at h
      cases hr : indexOfEq rest with
      | none => rw [hr] at h; simp at h
      | some j =>
        rw [hr] at h
        simp at h
        subst h
        simp only [List.take, List.cons_append, indexOfEq, if_neg hc]
        rw [List.append_eq, ih hr]
        rfl

theorem trimLeft_head_take_append {l : List Nat} {i : Nat}
    (h : indexOfEq l = some i) (zs : List Nat) :
    (trimLeftWS (l.take (i + 1) ++ zs)).head? = (trimLeftWS l).head? ∧
      trimLeftWS l ≠ [] := by
  induction l generalizing i with
  | nil => simp [indexOfEq] at h
  | cons c rest ih =>
    by_cases hsp : isSpaceB c
    · have hc : c ≠ 61 := by
        intro hc; subst hc; simp [isSpaceB] at hsp
      simp only [indexOfEq, if_neg hc] at h
      cases hr : indexOfEq rest with
      | none => rw [hr] at h; simp at h
      | some j =>
        rw [hr] at h
        simp at h
        subst h
        have := ih hr
        simp only [List.take, List.cons_append, trimLeftWS, List.dropWhile, hsp] at this ⊢
        exact this
    · have hf : isSpaceB c = false := by
        cases hx : isSpaceB c
        · rfl
        · exact absurd hx hsp
      constructor
      · simp only [List.take, List.cons_append, trimLeftWS, List.dropWhile, hf]
        rfl
      · simp only [trimLeftWS, List.dropWhile, hf]
        simp

theorem b64DecVal_encChar : ∀ x, x < 64 → b64DecVal (b64EncodeChar x) = some x := by
  decide

theorem b64EncodeChar_ge (x : Nat) : 43 ≤ b64EncodeChar x := by
  unfold b64EncodeChar
  split <;> [omega; (split <;> [omega; (split <;> [omega; (split <;> omega)])])]

theorem b64EncodeChar_ne_eq (x : Nat) : b64EncodeChar x ≠ 61 := by
  unfold b64EncodeChar
  split <;> [omega; (split <;> [omega; (split <;> [omega; (split <;> omega)])])]

theorem mem_b64Encode_ge (l : List Nat) : ∀ ch ∈ b64Encode l, 43 ≤ ch := by
  induction l using b64Encode.induct with
  | case1 =>
    intro ch h
    simp [b64Encode] at h
  | case2 a =>
    intro ch h
    simp [b64Encode] at h
    rcases h with h | h | h <;> first
      | (subst h; exact b64EncodeChar_ge _)
      | (subst h; omega)
  | case3 a b =>
    intro ch h
    simp [b64Encode] at h
    rcases h with h | h | h | h <;> first
      | (subst h; exact b64EncodeChar_ge _)
      | (subst h; omega)
  | case4 a b c rest ih =>
    intro ch h
    simp only [b64Encode, List.mem_cons] at h
    rcases h with h | h | h | h | h <;> first
      | (subst h; exact b64EncodeChar_ge _)
      | (exact ih ch h)

theorem filter_b64Encode (l : List Nat) :
    (b64Encode l).filter (fun ch => !(ch == 10) && !(ch == 13)) = b64Encode l := by
  apply List.filter_eq_self.mpr
  intro ch hch
  have h := mem_b64Encode_ge l ch hch
  have h10 : ch ≠ 10 := by omega
  have h13 : ch ≠ 13 := by omega
  simp [h10, h13]

theorem b64_chunks_enc : ∀ l, Bytes l → b64DecodeChunks (b64Encode l) = some l := by
  intro l
  induction l using b64Encode.induct with
  | case1 => intro _; rfl
  | case2 a =>
    intro hb
    have ha : a < 256 := hb a (by simp)
    have h1 : a / 4 < 64 := by omega
    have h2 : a % 4 * 16 < 64 := by omega
    simp only [b64Encode, b64DecodeChunks, b64DecVal_encChar _ h1, b64DecVal_encChar _ h2]
    simp
    omega
  | case3 a b =>
    intro hb
    have ha : a < 256 := hb a (by simp)
    have hbb : b < 256 := hb b (by simp)
    have h1 : a / 4 < 64 := by omega
    have h2 : a % 4 * 16 + b / 16 < 64 := by omega
    have h3 : b % 16 * 4 < 64 := by omega
    simp only [b64Encode, b64DecodeChunks, b64DecVal_encChar _ h1, b64DecVal_encChar _ h2,
      if_neg (b64EncodeChar_ne_eq (b % 16 * 4)), b64DecVal_encChar _ h3]
    simp
    omega
  | case4 a b c rest ih =>
    intro hb
    have ha : a < 256 := hb a (by simp)
    have hbb : b < 256 := hb b (by simp)
    have hc : c < 256 := hb c (by simp)
    have hrest : Bytes rest := fun x hx => hb x (by simp [hx])
    have h1 : a / 4 < 64 := by omega
    have h2 : a % 4 * 16 + b / 16 < 64 := by omega
    have h3 : b % 16 * 4 + c / 64 < 64 := by omega
    have h4 : c % 64 < 64 := by omega
    simp only [b64Encode, b64DecodeChunks, b64DecVal_encChar _ h1, b64DecVal_encChar _ h2,
      if_neg (b64EncodeChar_ne_eq (b % 16 * 4 + c / 64)), b64DecVal_encChar _ h3,
      if_neg (b64EncodeChar_ne_eq (c % 64)), b64DecVal_encChar _ h4, ih hrest]
    simp
    omega

theorem b64_roundtrip (l : List Nat) (h : Bytes l) : b64Decode (b64Encode l) = some l := by
  rw [b64Decode, filter_b64Encode, b64_chunks_enc l h]

theorem mem_b64Encode_no10 (l : List Nat) : 10 ∉ b64Encode l := by
  intro h
  have := mem_b64Encode_ge l 10 h
  omega

theorem sha256Model_length (l : List Nat) : (sha256Model l).length = 32 := by
  simp [sha256Model]

theorem streamEnc_length (key nonce : List Nat) :
    ∀ i pt, (streamEnc key nonce i pt).length = pt.length := by
  intro i pt
  induction pt generalizing i with
  | nil => rfl
  | cons b rest ih => simp [streamEnc, ih]

theorem streamDec_streamEnc (key nonce : List Nat) :
    ∀ i pt, Bytes pt → streamDec key nonce i (streamEnc key nonce i pt) = pt := by
  intro i pt
  induction pt generalizing i with
  | nil => intro _; rfl
  | cons b rest ih =>
    intro hb
    have hblt : b < 256 := hb b (by simp)
    have hrest : Bytes rest := fun x hx => hb x (by simp [hx])
    have hks : ksByte key nonce i < 256 := Nat.mod_lt _ (by omega)
    simp only [streamEnc, streamDec, ih (i + 1) hrest]
    congr 1
    omega

theorem gcmSeal_length (key nonce pt : List Nat) :
    (gcmSeal key nonce pt).length = pt.length + 16 := by
  simp [gcmSeal, gcmTagBytes, streamEnc_length]

theorem Bytes_gcmSeal (key nonce pt : List Nat) : Bytes (gcmSeal key nonce pt) := by
  intro b hb
  simp only [gcmSeal, List.mem_append] at hb
  rcases hb with h | h
  · generalize 0 = i at h
    induction pt generalizing i with
    | nil => simp [streamEnc] at h
    | cons x rest ih =>
      simp only [streamEnc, List.mem_cons] at h
      rcases h with h | h
      · subst h; exact Nat.mod_lt _ (by omega)
      · exact ih (i + 1) h
  · simp only [gcmTagBytes, List.mem_map] at h
    obtain ⟨i, _, hi⟩ := h
    subst hi
    exact Nat.mod_lt _ (by omega)

theorem gcmOpen_gcmSeal (key nonce pt : List Nat) (h : Bytes pt) :
    gcmOpen key nonce (gcmSeal key nonce pt) = some pt := by
  have hclen : (streamEnc key nonce 0 pt).length = pt.length := streamEnc_length key nonce 0 pt
  have htlen : (gcmTagBytes key nonce (streamEnc key nonce 0 pt)).length = 16 := by
    simp [gcmTagBytes]
  have hlen2 : (streamEnc key nonce 0 pt ++
      gcmTagBytes key nonce (streamEnc key nonce 0 pt)).length = pt.length + 16 := by
    simp [hclen, htlen]
  simp only [gcmOpen, gcmSeal]
  rw [hlen2, if_neg (by omega)]
  have harith : pt.length + 16 - 16 = (streamEnc key nonce 0 pt).length := by omega
  rw [harith, take_append_exact, drop_append_exact, if_pos rfl,
    streamDec_streamEnc key nonce 0 pt h]

theorem take_append_of_length_eq {α : Type} {a : List α} {n : Nat} (b : List α)
    (h : a.length = n) : (a ++ b).take n = a := by
  subst h
  exact take_append_exact a b

theorem drop_append_of_length_eq {α : Type} {a : List α} {n : Nat} (b : List α)
    (h : a.length = n) : (a ++ b).drop n = b := by
  subst h
  exact drop_append_exact a b

theorem Bytes_append {a b : List Nat} (ha : Bytes a) (hb : Bytes b) : Bytes (a ++ b) := by
  intro x hx
  rcases List.mem_append.mp hx with h | h
  · exact ha x h
  · exact hb x h

theorem Bytes_sub {l l' : List Nat} (hsub : l' ⊆ l) (h : Bytes l) : Bytes l' :=
  fun x hx => h x (hsub hx)

/-- The comment-or-blank test of the masking pass is unchanged when the
tail of an assignment line (everything after its first `'='`) is replaced. -/
theorem comment_blank_take_append {line : List Nat} {i : Nat} (zs : List Nat)
    (hidx : indexOfEq line = some i)
    (h : (startsWith [35] (trimSpace line) || trimSpace line == []) = false) :
    (startsWith [35] (trimSpace (line.take (i + 1) ++ zs)) ||
      trimSpace (line.take (i + 1) ++ zs) == []) = false := by
  have hh := trimLeft_head_take_append hidx zs
  rw [comment_blank_head] at h ⊢
  cases h1 : trimLeftWS line with
  | nil => exact absurd h1 hh.2
  | cons a t =>
    rw [h1] at h
    cases h2 : trimLeftWS (line.take (i + 1) ++ zs) with
    | nil =>
      rw [h2, h1] at hh
      simp at hh
    | cons b u =>
      rw [h2, h1] at hh
      simp only [List.head?] at hh
      have hba : b = a := by
        have := hh.1
        simpa using this
      rw [hba]
      exact h

/-- Unmasking inverts masking line by line. -/
theorem unmaskLine_maskLine (key nonce line : List Nat) (hline : Bytes line)
    (hn : nonce.length = nonceSize) (hnb : Bytes nonce) :
    unmaskLine key (maskLine key nonce line) = Except.ok line := by
  by_cases hcb : (startsWith [35] (trimSpace line) || trimSpace line == []) = true
  · have hm : maskLine key nonce line = line := by
      unfold maskLine
      rw [if_pos hcb]
    rw [hm]
    unfold unmaskLine
    rw [if_pos hcb]
  · have hcb' : (startsWith [35] (trimSpace line) || trimSpace line == []) = false := by
      simpa using hcb
    cases hidx : indexOfEq line with
    | none =>
      have hm : maskLine key nonce line = line := by
        unfold maskLine
        rw [if_neg hcb, hidx]
      rw [hm]
      unfold unmaskLine
      rw [if_neg hcb, hidx]
    | some i =>
      by_cases hv : line.drop (i + 1) = []
      · have hm : maskLine key nonce line = line := by
          unfold maskLine
          rw [if_neg hcb, hidx]
          simp only [hv, if_pos]
        rw [hm]
        unfold unmaskLine
        rw [if_neg hcb, hidx]
        simp only [hv]
        rfl
      · -- the genuinely masked branch
        have hilt : i < line.length := indexOfEq_lt_length hidx
        have htklen : (line.take (i + 1)).length = i + 1 := by
          rw [List.length_take]; omega
        set v := line.drop (i + 1) with hvdef
        set enc := b64Encode (nonce ++ gcmSeal key nonce v) with hencdef
        have hmask : maskLine key nonce line = line.take (i + 1) ++ (MaskedMarker ++ enc) := by
          simp only [maskLine, hcb', hidx, Bool.false_eq_true, if_false]
          rw [if_neg hv, List.append_assoc]
        rw [hmask]
        have hcb2 := comment_blank_take_append (MaskedMarker ++ enc) hidx hcb'
        have hidx2 := indexOfEq_take_append hidx (MaskedMarker ++ enc)
        have htake2 : (line.take (i + 1) ++ (MaskedMarker ++ enc)).take (i + 1) =
            line.take (i + 1) := take_append_of_length_eq _ htklen
        have hdrop2 : (line.take (i + 1) ++ (MaskedMarker ++ enc)).drop (i + 1) =
            MaskedMarker ++ enc := drop_append_of_length_eq _ htklen
        have hsw2 : startsWith MaskedMarker (MaskedMarker ++ enc) = true :=
          startsWith_append _ _
        have hdropm : (MaskedMarker ++ enc).drop MaskedMarker.length = enc :=
          drop_append_exact _ _
        have hbv : Bytes v := Bytes_sub (List.drop_subset _ _) hline
        have hdec : b64Decode enc = some (nonce ++ gcmSeal key nonce v) :=
          b64_roundtrip _ (Bytes_append hnb (Bytes_gcmSeal key nonce v))
        have hctlen : (nonce ++ gcmSeal key nonce v).length = nonceSize + (v.length + 16) := by
          rw [List.length_append, hn, gcmSeal_length]
        have htaken : (nonce ++ gcmSeal key nonce v).take nonceSize = nonce :=
          take_append_of_length_eq _ hn
        have hdropn : (nonce ++ gcmSeal key nonce v).drop nonceSize = gcmSeal key nonce v :=
          drop_append_of_length_eq _ hn
        simp only [unmaskLine, hcb2, Bool.false_eq_true, if_false, hidx2, htake2, hdrop2,
          hsw2, Bool.not_true, hdropm, hdec, hctlen]
        rw [if_neg (by omega), htaken, hdropn, gcmOpen_gcmSeal key nonce v hbv]
        show Except.ok (List.take (i + 1) line ++ v) = Except.ok line
        rw [hvdef, List.take_append_drop]

/-- A masked line is either the original line or `key-part ++ wrapper`. -/
theorem maskLine_cases (key nonce line : List Nat) :
    maskLine key nonce line = line ∨
      ∃ i, indexOfEq line = some i ∧
        maskLine key nonce line = line.take (i + 1) ++
          (MaskedMarker ++ b64Encode (nonce ++ gcmSeal key nonce (line.drop (i + 1)))) := by
  by_cases hcb : (startsWith [35] (trimSpace line) || trimSpace line == []) = true
  · left
    unfold maskLine
    rw [if_pos hcb]
  · cases hidx : indexOfEq line with
    | none =>
      left
      unfold maskLine
      rw [if_neg hcb, hidx]
    | some i =>
      by_cases hv : line.drop (i + 1) = []
      · left
        unfold maskLine
        rw [if_neg hcb, hidx]
        simp only [hv, if_pos]
      · right
        refine ⟨i, rfl, ?_⟩
        simp only [maskLine, hcb, Bool.false_eq_true, if_false, hidx]
        rw [if_neg hv, List.append_assoc]

theorem maskLine_no10 (key nonce line : List Nat) (h : 10 ∉ line) :
    10 ∉ maskLine key nonce line := by
  rcases maskLine_cases key nonce line with heq | ⟨i, _, heq⟩
  · rw [heq]; exact h
  · rw [heq]
    intro hmem
    rcases List.mem_append.mp hmem with h1 | h1
    · exact h (List.take_subset _ _ h1)
    · rcases List.mem_append.mp h1 with h2 | h2
      · have : (10 : Nat) ∉ MaskedMarker := by decide
        exact this h2
      · exact mem_b64Encode_no10 _ h2

theorem maskLines_no10 (key : List Nat) (nonces : Nat → List Nat) :
    ∀ i ls, (∀ l ∈ ls, 10 ∉ l) →
      ∀ s ∈ maskLines key nonces i ls, 10 ∉ s := by
  intro i ls
  induction ls generalizing i with
  | nil => intro _ s hs; simp [maskLines] at hs
  | cons l rest ih =>
    intro h s hs
    simp only [maskLines, List.mem_cons] at hs
    rcases hs with h1 | h1
    · subst h1
      exact maskLine_no10 key (nonces i) l (h l (List.mem_cons_self _ _))
    · exact ih (i + 1) (fun x hx => h x (List.mem_cons_of_mem _ hx)) s h1

theorem maskLines_ne_nil (key : List Nat) (nonces : Nat → List Nat) (i : Nat)
    {ls : List (List Nat)} (h : ls ≠ []) : maskLines key nonces i ls ≠ [] := by
  cases ls with
  | nil => exact absurd rfl h
  | cons l rest => simp [maskLines]

theorem unmaskLines_maskLines (key : List Nat) (nonces : Nat → List Nat)
    (hn : ∀ j, (nonces j).length = nonceSize ∧ Bytes (nonces j)) :
    ∀ i ls, (∀ l ∈ ls, Bytes l) →
      unmaskLines key (maskLines key nonces i ls) = Except.ok ls := by
  intro i ls
  induction ls generalizing i with
  | nil => intro _; rfl
  | cons l rest ih =>
    intro h
    have h1 := unmaskLine_maskLine key (nonces i) l (h l (List.mem_cons_self _ _))
      (hn i).1 (hn i).2
    simp only [maskLines, unmaskLines, h1,
      ih (i + 1) (fun x hx => h x (List.mem_cons_of_mem _ hx))]

/-- C1: Masking round-trip: for every key and every well-formed env
document, unmasking the result of masking the document returns exactly the
document; comment lines, blank lines and line ordering are byte-identical
(the whole byte sequence is recovered exactly). -/
theorem mask_unmask_roundtrip (key content : List Nat) (nonces : Nat → List Nat)
    (hc : Bytes content)
    (hn : ∀ i, (nonces i).length = nonceSize ∧ Bytes (nonces i)) :
    UnmaskEnvContent key (MaskEnvContent key nonces content) = Except.ok content := by
  have hlines10 := mem_splitNL_no10 content
  have hlinesB : ∀ l ∈ splitNL content, Bytes l := fun l hl x hx =>
    hc x (mem_of_mem_splitNL content l hl x hx)
  have hm10 : ∀ s ∈ maskLines key nonces 0 (splitNL content), 10 ∉ s :=
    maskLines_no10 key nonces 0 (splitNL content) hlines10
  have hmne : maskLines key nonces 0 (splitNL content) ≠ [] :=
    maskLines_ne_nil key nonces 0 (splitNL_ne_nil content)
  unfold UnmaskEnvContent MaskEnvContent
  rw [splitNL_joinNL _ hmne hm10, unmaskLines_maskLines key nonces hn 0 _ hlinesB]
  show Except.ok (joinNL (splitNL content)) = Except.ok content
  rw [joinNL_splitNL]

/-- Witness for C1: the round trip on the document `"A=b\n#c\n\nB="`
(an assignment, a comment, a blank line, an empty-valued assignment). -/
theorem mask_unmask_roundtrip_witness :
    Bytes [65, 61, 98, 10, 35, 99, 10, 10, 66, 61] ∧
    UnmaskEnvContent (List.replicate 32 0)
      (MaskEnvContent (List.replicate 32 0) (fun _ => List.replicate 12 0)
        [65, 61, 98, 10, 35, 99, 10, 10, 66, 61]) =
      Except.ok [65, 61, 98, 10, 35, 99, 10, 10, 66, 61] :=
  ⟨by decide,
   mask_unmask_roundtrip (List.replicate 32 0) [65, 61, 98, 10, 35, 99, 10, 10, 66, 61]
     (fun _ => List.replicate 12 0) (by decide)
     (fun _ => (by decide :
       (List.replicate 12 0).length = nonceSize ∧ Bytes (List.replicate 12 0)))⟩

/-- C2: Whole-file round-trip: decrypting the whole-file encryption of any
byte content with the same key returns exactly the content, in both the
internal codec and the V1 codec. -/
theorem wholefile_roundtrip (key nonce content : List Nat)
    (hn : nonce.length = nonceSize) (hnb : Bytes nonce) (hc : Bytes content) :
    DecryptContent key (EncryptContent key nonce content) = Except.ok content ∧
    DecryptContentV1 key (EncryptContentV1 key nonce content) = Except.ok content := by
  have hseal := Bytes_gcmSeal key nonce content
  have hdec : b64Decode (b64Encode (nonce ++ gcmSeal key nonce content)) =
      some (nonce ++ gcmSeal key nonce content) :=
    b64_roundtrip _ (Bytes_append hnb hseal)
  have hclen : (nonce ++ gcmSeal key nonce content).length =
      nonceSize + (content.length + 16) := by
    rw [List.length_append, hn, gcmSeal_length]
  have htaken := take_append_of_length_eq (gcmSeal key nonce content) hn
  have hdropn := drop_append_of_length_eq (gcmSeal key nonce content) hn
  have hopen := gcmOpen_gcmSeal key nonce content hc
  constructor
  · unfold DecryptContent EncryptContent IsEncrypted
    rw [startsWith_append]
    simp only [Bool.not_true, Bool.false_eq_true, if_false, drop_append_exact, hdec, hclen]
    rw [if_neg (by omega), htaken, hdropn, hopen]
  · unfold DecryptContentV1 EncryptContentV1
    rw [startsWith_append]
    simp only [Bool.not_true, Bool.false_eq_true, if_false, drop_append_exact, hdec, hclen]
    rw [if_neg (by omega), htaken, hdropn, hopen]

/-- Witness for C2 at key `0x05 * 32`, nonce `0x01 * 12`, content `"Hi"`. -/
theorem wholefile_roundtrip_witness :
    (List.replicate 12 1).length = nonceSize ∧
    DecryptContent (List.replicate 32 5)
      (EncryptContent (List.replicate 32 5) (List.replicate 12 1) [72, 105]) =
      Except.ok [72, 105] ∧
    DecryptContentV1 (List.replicate 32 5)
      (EncryptContentV1 (List.replicate 32 5) (List.replicate 12 1) [72, 105]) =
      Except.ok [72, 105] :=
  ⟨by decide,
   (wholefile_roundtrip (List.replicate 32 5) (List.replicate 12 1) [72, 105]
     (by decide) (by decide) (by decide)).1,
   (wholefile_roundtrip (List.replicate 32 5) (List.replicate 12 1) [72, 105]
     (by decide) (by decide) (by decide)).2⟩

theorem unmaskLines_ok_all (key : List Nat) :
    ∀ ls rs, unmaskLines key ls = Except.ok rs →
      ∀ l ∈ ls, ∃ r, unmaskLine key l = Except.ok r := by
  intro ls
  induction ls with
  | nil => intro rs _ l hl; simp at hl
  | cons l0 rest ih =>
    intro rs h l hl
    cases h0 : unmaskLine key l0 with
    | error e =>
      rw [unmaskLines, h0] at h
      cases h
    | ok r0 =>
      rw [unmaskLines, h0] at h
      cases h1 : unmaskLines key rest with
      | error e => rw [h1] at h; cases h
      | ok rs' =>
        rcases List.mem_cons.mp hl with heq | hmem
        · exact ⟨r0, heq ▸ h0⟩
        · exact ih rs' h1 l hmem

theorem unmaskLines_first_error (key : List Nat) (e : String) :
    ∀ pre l post, (∀ l' ∈ pre, ∃ r, unmaskLine key l' = Except.ok r) →
      unmaskLine key l = Except.error e →
      unmaskLines key (pre ++ l :: post) = Except.error e := by
  intro pre
  induction pre with
  | nil =>
    intro l post _ hl
    rw [List.nil_append, unmaskLines, hl]
  | cons p ps ih =>
    intro l post hpre hl
    obtain ⟨r, hr⟩ := hpre p (List.mem_cons_self _ _)
    rw [List.cons_append, unmaskLines, hr,
      ih l post (fun x hx => hpre x (List.mem_cons_of_mem _ hx)) hl]

/-- C3: Unmask atomicity: a document with a line in the masked format
whose encrypted value fails to decrypt makes the whole unmask operation
return an error and no output bytes — never a partially unmasked document;
when the failing-to-decrypt line is the first line to fail at all, the
error is exactly the authentication-failure error. -/
theorem unmask_atomic_failure (key content : List Nat) :
    ((∃ l ∈ splitNL content, ∀ r, unmaskLine key l ≠ Except.ok r) →
      ∀ out, UnmaskEnvContent key content ≠ Except.ok out) ∧
    (∀ pre l post, splitNL content = pre ++ l :: post →
      (∀ l' ∈ pre, ∃ r, unmaskLine key l' = Except.ok r) →
      unmaskLine key l =
        Except.error "unmasking failed: invalid password or corrupted data" →
      UnmaskEnvContent key content =
        Except.error "unmasking failed: invalid password or corrupted data") := by
  constructor
  · rintro ⟨l, hl, hbad⟩ out hok
    unfold UnmaskEnvContent at hok
    cases h1 : unmaskLines key (splitNL content) with
    | error e => rw [h1] at hok; cases hok
    | ok ls =>
      obtain ⟨r, hr⟩ := unmaskLines_ok_all key (splitNL content) ls h1 l hl
      exact hbad r hr
  · intro pre l post hsplit hpre herr
    unfold UnmaskEnvContent
    rw [hsplit, unmaskLines_first_error key _ pre l post hpre herr]

/-- Witness for C3: a one-line document `"A=" ++ "ENVI_MASKED:" ++
base64(28 zero bytes)` — syntactically a masked assignment, but all-zero
nonce, empty ciphertext and all-zero tag do not verify under the key, so
the whole unmask aborts with the authentication-failure error. -/
theorem unmask_atomic_failure_witness :
    UnmaskEnvContent (List.replicate 32 9)
      ([65, 61] ++ MaskedMarker ++ b64Encode (List.replicate 28 0)) =
      Except.error "unmasking failed: invalid password or corrupted data" :=
  (unmask_atomic_failure (List.replicate 32 9)
      ([65, 61] ++ MaskedMarker ++ b64Encode (List.replicate 28 0))).2
    [] ([65, 61] ++ MaskedMarker ++ b64Encode (List.replicate 28 0)) []
    (by rfl) (fun l' hl' => absurd hl' (List.not_mem_nil l')) (by rfl)

/-- C4: Weak-password rejection: a password of fewer than 8 bytes is
rejected by password-based key derivation; a password of at least 8 bytes
deterministically yields the 32-byte SHA-256 digest of the password text
as the key. -/
theorem password_key_derivation (password : List Nat) :
    (password.length < 8 →
      getKeyFromPassword password =
        Except.error "password must be at least 8 characters long") ∧
    (8 ≤ password.length →
      getKeyFromPassword password = Except.ok (sha256Model password) ∧
      (sha256Model password).length = 32) := by
  constructor
  · intro h
    unfold getKeyFromPassword
    rw [if_pos h]
  · intro h
    refine ⟨?_, sha256Model_length password⟩
    unfold getKeyFromPassword
    rw [if_neg (by omega)]

/-- Witness for C4 at the 3-byte password `"abc"` (rejected) and the
9-byte password `"aaaaaaaaa"` (accepted). -/
theorem password_key_derivation_witness :
    getKeyFromPassword [97, 98, 99] =
      Except.error "password must be at least 8 characters long" ∧
    getKeyFromPassword (List.replicate 9 97) =
      Except.ok (sha256Model (List.replicate 9 97)) :=
  ⟨(password_key_derivation [97, 98, 99]).1 (by decide),
   ((password_key_derivation (List.replicate 9 97)).2 (by decide)).1⟩

/-- C5: Key-file fallback chain: the trimmed key-file content is used as a
key via, in order, its base64 decoding when that decodes to exactly 32
bytes, itself when it is exactly 32 bytes, and otherwise its 32-byte hash —
so key files of any length yield a usable 32-byte key rather than an
error. -/
theorem key_file_fallback_chain (keyData : List Nat) :
    (∀ d, b64Decode (trimSpace keyData) = some d → d.length = 32 →
      getKeyFromFile keyData = d) ∧
    (∀ d, b64Decode (trimSpace keyData) = some d → d.length ≠ 32 →
      (trimSpace keyData).length = 32 → getKeyFromFile keyData = trimSpace keyData) ∧
    (∀ d, b64Decode (trimSpace keyData) = some d → d.length ≠ 32 →
      (trimSpace keyData).length ≠ 32 →
      getKeyFromFile keyData = sha256Model (trimSpace keyData)) ∧
    (b64Decode (trimSpace keyData) = none → (trimSpace keyData).length = 32 →
      getKeyFromFile keyData = trimSpace keyData) ∧
    (b64Decode (trimSpace keyData) = none → (trimSpace keyData).length ≠ 32 →
      getKeyFromFile keyData = sha256Model (trimSpace keyData)) ∧
    (getKeyFromFile keyData).length = 32 := by
  refine ⟨?_, ?_, ?_, ?_, ?_, ?_⟩
  · intro d h1 h2
    simp only [getKeyFromFile, EncryptionKeyLength, h1]
    rw [if_pos h2]
  · intro d h1 h2 h3
    simp only [getKeyFromFile, EncryptionKeyLength, h1]
    rw [if_neg h2, if_pos h3]
  · intro d h1 h2 h3
    simp only [getKeyFromFile, EncryptionKeyLength, h1]
    rw [if_neg h2, if_neg h3]
  · intro h1 h2
    simp only [getKeyFromFile, EncryptionKeyLength, h1]
    rw [if_pos h2]
  · intro h1 h2
    simp only [getKeyFromFile, EncryptionKeyLength, h1]
    rw [if_neg h2]
  · simp only [getKeyFromFile, EncryptionKeyLength]
    cases h1 : b64Decode (trimSpace keyData) with
    | some d =>
      show (if d.length = 32 then d
        else if (trimSpace keyData).length = 32 then trimSpace keyData
        else sha256Model (trimSpace keyData)).length = 32
      by_cases h2 : d.length = 32
      · rw [if_pos h2]
        exact h2
      · rw [if_neg h2]
        by_cases h3 : (trimSpace keyData).length = 32
        · rw [if_pos h3]
          exact h3
        · rw [if_neg h3]
          exact sha256Model_length _
    | none =>
      show (if (trimSpace keyData).length = 32 then trimSpace keyData
        else sha256Model (trimSpace keyData)).length = 32
      by_cases h3 : (trimSpace keyData).length = 32
      · rw [if_pos h3]
        exact h3
      · rw [if_neg h3]
        exact sha256Model_length _

/-- Witness for C5: the 3-byte key file `"abc\n"` (neither valid base64 of
32 bytes nor 32 bytes long) falls through to the hash of its trimmed
content; a base64 key file encoding 32 zero bytes decodes to them. -/
theorem key_file_fallback_chain_witness :
    getKeyFromFile [97, 98, 99, 10] = sha256Model [97, 98, 99] ∧
    getKeyFromFile (b64Encode (List.replicate 32 0)) = List.replicate 32 0 :=
  ⟨(key_file_fallback_chain [97, 98, 99, 10]).2.2.2.2.1 (by decide) (by decide),
   (key_file_fallback_chain (b64Encode (List.replicate 32 0))).1
     (List.replicate 32 0) (by decide) (by decide)⟩

/-- C8: Whole-file decrypt failure conditions: when the base64-decoded
ciphertext is shorter than one nonce length the decrypt fails with the
too-short error; when the authentication check fails it fails with the
authentication error; a failed decrypt never also yields plaintext. -/
theorem decrypt_failure_conditions (key content : List Nat) :
    (∀ ct, IsEncrypted content = true →
      b64Decode (content.drop EncryptionMarker.length) = some ct →
      ct.length < nonceSize →
      DecryptContent key content =
        Except.error "invalid encrypted data: ciphertext too short") ∧
    (∀ ct, IsEncrypted content = true →
      b64Decode (content.drop EncryptionMarker.length) = some ct →
      ¬ ct.length < nonceSize →
      gcmOpen key (ct.take nonceSize) (ct.drop nonceSize) = none →
      DecryptContent key content =
        Except.error "decryption failed: invalid password or corrupted data") ∧
    (∀ msg pt, DecryptContent key content = Except.error msg →
      DecryptContent key content ≠ Except.ok pt) := by
  refine ⟨?_, ?_, ?_⟩
  · intro ct h1 h2 h3
    unfold DecryptContent
    simp only [h1, Bool.not_true, Bool.false_eq_true, if_false, h2]
    rw [if_pos h3]
  · intro ct h1 h2 h3 h4
    unfold DecryptContent
    simp only [h1, Bool.not_true, Bool.false_eq_true, if_false, h2]
    rw [if_neg h3, h4]
  · intro msg pt h1 h2
    rw [h1] at h2
    exact Except.noConfusion h2

/-- Witness for C8: under a fixed key, a ciphertext of three bytes is
rejected as too short, and a 28-byte ciphertext (zero nonce, zero tag)
fails authentication. -/
theorem decrypt_failure_conditions_witness :
    DecryptContent (List.replicate 32 7) (EncryptionMarker ++ b64Encode [0, 0, 0]) =
      Except.error "invalid encrypted data: ciphertext too short" ∧
    DecryptContent (List.replicate 32 7)
        (EncryptionMarker ++ b64Encode (List.replicate 28 0)) =
      Except.error "decryption failed: invalid password or corrupted data" :=
  ⟨(decrypt_failure_conditions (List.replicate 32 7)
      (EncryptionMarker ++ b64Encode [0, 0, 0])).1 [0, 0, 0]
      (by decide) (by decide) (by decide),
   (decrypt_failure_conditions (List.replicate 32 7)
      (EncryptionMarker ++ b64Encode (List.replicate 28 0))).2.1 (List.replicate 28 0)
      (by decide) (by decide) (by decide) (by decide)⟩

/-- A V1-masked line is either the original line or
`key-part ++ '=' :: wrapper`. -/
theorem maskLineV1_cases (key nonce line : List Nat) :
    maskLineV1 key nonce line = line ∨
      ∃ i, indexOfEq line = some i ∧
        maskLineV1 key nonce line = line.take i ++ 61 ::
          (maskedOpenV1 ++
            b64Encode (nonce ++ gcmSeal key nonce (line.drop (i + 1))) ++ [93]) := by
  by_cases hcb : (line == [] || startsWith [35] (trimSpace line)) = true
  · left
    unfold maskLineV1
    rw [if_pos hcb]
  · cases hidx : indexOfEq line with
    | none =>
      left
      unfold maskLineV1
      rw [if_neg hcb, hidx]
    | some i =>
      by_cases hv : (trimSpace (line.drop (i + 1)) == []) = true
      · left
        simp only [maskLineV1, hcb, Bool.false_eq_true, if_false, hidx, hv, if_true]
      · right
        refine ⟨i, rfl, ?_⟩
        simp only [maskLineV1, hcb, Bool.false_eq_true, if_false, hidx, hv]
        simp [List.append_assoc]

theorem maskLineV1_no10 (key nonce line : List Nat) (h : 10 ∉ line) :
    10 ∉ maskLineV1 key nonce line := by
  rcases maskLineV1_cases key nonce line with heq | ⟨i, _, heq⟩
  · rw [heq]; exact h
  · rw [heq]
    intro hmem
    rcases List.mem_append.mp hmem with h1 | h1
    · exact h (List.take_subset _ _ h1)
    · rcases List.mem_cons.mp h1 with h2 | h2
      · exact absurd h2.symm (by decide)
      · rcases List.mem_append.mp h2 with h3 | h3
        · rcases List.mem_append.mp h3 with h4 | h4
          · have : (10 : Nat) ∉ maskedOpenV1 := by decide
            exact this h4
          · exact mem_b64Encode_no10 _ h4
        · simp at h3

theorem maskLinesV1_no10 (key : List Nat) (nonces : Nat → List Nat) :
    ∀ i ls, (∀ l ∈ ls, 10 ∉ l) →
      ∀ s ∈ maskLinesV1 key nonces i ls, 10 ∉ s := by
  intro i ls
  induction ls generalizing i with
  | nil => intro _ s hs; simp [maskLinesV1] at hs
  | cons l rest ih =>
    intro h s hs
    simp only [maskLinesV1, List.mem_cons] at hs
    rcases hs with h1 | h1
    · subst h1
      exact maskLineV1_no10 key (nonces i) l (h l (List.mem_cons_self _ _))
    · exact ih (i + 1) (fun x hx => h x (List.mem_cons_of_mem _ hx)) s h1

theorem scanLines_no10 (content : List Nat) : ∀ s ∈ scanLines content, 10 ∉ s := by
  intro s hs
  simp only [scanLines, List.mem_map] at hs
  obtain ⟨x, hx, hdx⟩ := hs
  have hxs : x ∈ splitNL content := by
    by_cases hl : (splitNL content).getLast? = some []
    · rw [if_pos hl] at hx
      exact List.dropLast_subset _ hx
    · rw [if_neg hl] at hx
      exact hx
  have h10 : 10 ∉ x := mem_splitNL_no10 content x hxs
  subst hdx
  unfold dropCR
  by_cases hcr : x.getLast? = some 13
  · rw [if_pos hcr]
    intro hm
    exact h10 (List.dropLast_subset _ hm)
  · rw [if_neg hcr]
    exact h10

/-- The V1 masking pass, split back into lines: the marker line first,
then the transformed scanner lines. -/
theorem maskV1_splitNL (key : List Nat) (nonces : Nat → List Nat) (content : List Nat) :
    splitNL (MaskEnvContentV1 key nonces content) =
      maskedMarkerV1 :: maskLinesV1 key nonces 1 (scanLines content) := by
  unfold MaskEnvContentV1
  apply splitNL_joinNL
  · simp
  · intro s hs
    rcases List.mem_cons.mp hs with h | h
    · subst h
      decide
    · exact maskLinesV1_no10 key nonces 1 (scanLines content)
        (scanLines_no10 content) s h

theorem joinNL_cons_ex (l : List Nat) (ls : List (List Nat)) :
    ∃ r, joinNL (l :: ls) = l ++ r := by
  cases ls with
  | nil => exact ⟨[], (List.append_nil l).symm⟩
  | cons l' rest => exact ⟨10 :: joinNL (l' :: rest), rfl⟩

/-- C6: Whole-file encrypt output format (V1 codec): the output is exactly
the literal version-tagged marker, a newline, and then the base64 encoding
of nonce followed by ciphertext-with-tag; stripping the marker line and
base64-decoding recovers `nonce ++ ciphertext-with-tag`. -/
theorem encrypt_output_format (key nonce content : List Nat) (hnb : Bytes nonce) :
    EncryptContentV1 key nonce content =
      (encMarkerV1NoNL ++ [10]) ++ b64Encode (nonce ++ gcmSeal key nonce content) ∧
    b64Decode ((EncryptContentV1 key nonce content).drop encMarkerV1.length) =
      some (nonce ++ gcmSeal key nonce content) := by
  constructor
  · rfl
  · unfold EncryptContentV1
    rw [drop_append_exact]
    exact b64_roundtrip _ (Bytes_append hnb (Bytes_gcmSeal key nonce content))

/-- Witness for C6 at an empty key, nonce `0x01 * 12` and content `[1, 2]`. -/
theorem encrypt_output_format_witness :
    EncryptContentV1 [] (List.replicate 12 1) [1, 2] =
      (encMarkerV1NoNL ++ [10]) ++
        b64Encode (List.replicate 12 1 ++ gcmSeal [] (List.replicate 12 1) [1, 2]) ∧
    b64Decode ((EncryptContentV1 [] (List.replicate 12 1) [1, 2]).drop encMarkerV1.length) =
      some (List.replicate 12 1 ++ gcmSeal [] (List.replicate 12 1) [1, 2]) :=
  encrypt_output_format [] (List.replicate 12 1) [1, 2] (by decide)

/-- C7: Masked output marker line: for every key, nonce source and
document, the V1 mask operation's output begins with the single prepended
marker line `"# ENVI_MASKED_ENCRYPTION_V1"`, followed by the transformed
document lines. -/
theorem mask_output_marker_line (key : List Nat) (nonces : Nat → List Nat)
    (content : List Nat) :
    (splitNL (MaskEnvContentV1 key nonces content)).head? = some maskedMarkerV1 ∧
    splitNL (MaskEnvContentV1 key nonces content) =
      maskedMarkerV1 :: maskLinesV1 key nonces 1 (scanLines content) := by
  have h := maskV1_splitNL key nonces content
  exact ⟨by rw [h]; rfl, h⟩

/-- Counterexample for C9: the plaintext two-line document
`"FOO=bar\n# ENVI_MASKED_ENCRYPTION_V1 note"` is classified `Masked`, not
`Plaintext`, although it is a plain document: it lacks the whole-file
marker prefix and its first line is not the marker line every V1 mask
output starts with. -/
theorem classify_false_positive_cex :
    Classify plaintextCommentDoc = Format.Masked ∧
    startsWith encMarkerV1NoNL plaintextCommentDoc = false ∧
    (splitNL plaintextCommentDoc).head? = some [70, 79, 79, 61, 98, 97, 114] ∧
    [70, 79, 79, 61, 98, 97, 114] ≠ maskedMarkerV1 := by
  refine ⟨?_, ?_, ?_, ?_⟩ <;> decide

/-- C9 (amended): the classifier returns `WholeFileEncrypted` on every
whole-file encrypt output and `Masked` on every mask output; it returns
`Plaintext` on a plaintext document provided the document does not start
with the whole-file marker and does not contain the masked marker line as
a substring (a plaintext document containing that substring is a false
positive, see C10). -/
theorem classify_correct_amended :
    (∀ key nonce content,
      Classify (EncryptContentV1 key nonce content) = Format.WholeFileEncrypted) ∧
    (∀ key (nonces : Nat → List Nat) content,
      Classify (MaskEnvContentV1 key nonces content) = Format.Masked) ∧
    (∀ content, startsWith encMarkerV1NoNL content = false →
      containsSub content maskedMarkerV1 = false →
      Classify content = Format.Plaintext) := by
  refine ⟨?_, ?_, ?_⟩
  · intro key nonce content
    unfold Classify EncryptContentV1
    have h : startsWith encMarkerV1NoNL
        (encMarkerV1 ++ b64Encode (nonce ++ gcmSeal key nonce content)) = true := by
      have he : encMarkerV1 = encMarkerV1NoNL ++ [10] := by decide
      rw [he, List.append_assoc]
      exact startsWith_append _ _
    rw [if_pos h]
  · intro key nonces content
    obtain ⟨r, hr⟩ := joinNL_cons_ex maskedMarkerV1
      (maskLinesV1 key nonces 1 (scanLines content))
    unfold Classify MaskEnvContentV1
    rw [hr]
    have h1 : startsWith encMarkerV1NoNL (maskedMarkerV1 ++ r) = false := by
      simp [maskedMarkerV1, encMarkerV1NoNL, startsWith]
    have h2 : containsSub (maskedMarkerV1 ++ r) maskedMarkerV1 = true :=
      containsSub_of_startsWith (startsWith_append _ _)
    simp only [h1, Bool.false_eq_true, if_false, h2, if_true]
  · intro content h1 h2
    unfold Classify
    simp only [h1, Bool.false_eq_true, if_false, h2]

/-- Witness for C9: the one-line plaintext document `"FOO=b"` carries
neither marker and is classified `Plaintext`. -/
theorem classify_correct_amended_witness :
    startsWith encMarkerV1NoNL [70, 79, 79, 61, 98] = false ∧
    containsSub [70, 79, 79, 61, 98] maskedMarkerV1 = false ∧
    Classify [70, 79, 79, 61, 98] = Format.Plaintext :=
  ⟨by decide, by decide,
   classify_correct_amended.2.2 [70, 79, 79, 61, 98] (by decide) (by decide)⟩

/-- C10: Implicit masked-detection false positive: the plaintext document
`"X=1\n# ENVI_MASKED_ENCRYPTION_V1 deprecated"` — whose comment line merely
mentions the masked marker — is reported as `Masked` by the substring-based
detector, although no mask operation can produce it (every V1 mask output
has the marker alone as its first line) and it is not whole-file
encrypted. -/
theorem masked_detection_false_positive :
    Classify commentMentionsMarkerDoc = Format.Masked ∧
    (∀ key (nonces : Nat → List Nat) content,
      MaskEnvContentV1 key nonces content ≠ commentMentionsMarkerDoc) ∧
    startsWith encMarkerV1NoNL commentMentionsMarkerDoc = false := by
  refine ⟨by decide, ?_, by decide⟩
  intro key nonces content heq
  have h1 := maskV1_splitNL key nonces content
  rw [heq] at h1
  have h2 : (splitNL commentMentionsMarkerDoc).head? = some [88, 61, 49] := by decide
  rw [h1] at h2
  simp only [List.head?] at h2
  have h3 : maskedMarkerV1 = [88, 61, 49] := by
    simpa using h2
  exact absurd h3 (by decide)

